import Mathlib

/-!
Shallow embedding of the fractional Gaussian noise / fractional Brownian
motion samplers (src/gaussian/fractional.rs).

Floating-point doubles are modelled by the reals; `powf` is `Real.rpow`
(matching IEEE semantics on the cases the spec relies on, in particular
`0 ^ p = 0` for `p ≠ 0`). The external Generator collaborator is modelled
as an infinite stream `g : ℕ → ℝ` of independent standard-normal draws
together with a position into the stream; consuming a draw advances the
position. Rust `usize` subtraction is modelled by a checked subtraction
returning `Option ℕ` (debug-build semantics: `none` is the underflow panic).
-/

/-- A fractional Brownian motion (struct Motion). -/
structure Motion : Type where
  hurst : ℝ

/-- A fractional Gaussian noise (struct Noise). -/
structure Noise : Type where
  hurst : ℝ
  step : ℝ

/-- Debug assertion of the hurst macro: `debug_assert!(value > 0.0 && value < 1.0)`;
`none` models the assertion failure (abrupt termination). -/
noncomputable def hurstCheck (value : ℝ) : Option ℝ :=
  if 0 < value ∧ value < 1 then some value else none

/-- Debug assertion of the step macro: `debug_assert!(value > 0.0)`. -/
noncomputable def stepCheck (value : ℝ) : Option ℝ :=
  if 0 < value then some value else none

/-- Motion::new in release builds: stores the parameter unchanged. -/
def Motion.new (hurst : ℝ) : Motion :=
  ⟨hurst⟩

/-- Motion::new in debug builds: the hurst macro's assertion runs first. -/
noncomputable def Motion.newChecked (hurst : ℝ) : Option Motion :=
  (hurstCheck hurst).map Motion.mk

/-- Noise::new in release builds: stores both parameters unchanged. -/
def Noise.new (hurst step : ℝ) : Noise :=
  ⟨hurst, step⟩

/-- Noise::new in debug builds: both assertions run first. -/
noncomputable def Noise.newChecked (hurst step : ℝ) : Option Noise :=
  (hurstCheck hurst).bind fun h => (stepCheck step).map fun s => ⟨h, s⟩

/-- Stationary covariance of Noise (impl Stationary for Noise):
`0.5 * step^(2H) * ((tau+1)^(2H) - 2*tau^(2H) + |tau-1|^(2H))`
with `tau` cast from usize to double before the arithmetic. -/
noncomputable def Noise.stationaryCov (x : Noise) (tau : ℕ) : ℝ :=
  let t : ℝ := (tau : ℝ)
  let power : ℝ := 2 * x.hurst
  0.5 * x.step ^ power * ((t + 1) ^ power - 2 * t ^ power + |t - 1| ^ power)

/-- Checked usize subtraction: `none` models the debug-build underflow panic. -/
def usizeSub (a b : ℕ) : Option ℕ :=
  if b ≤ a then some (a - b) else none

/-- Pairwise covariance of Noise (impl Process for Noise):
`Stationary::cov(self, if t < s { s - t } else { t - s })`. -/
noncomputable def Noise.cov (x : Noise) (t s : ℕ) : Option ℝ :=
  (if t < s then usizeSub s t else usizeSub t s).map x.stationaryCov

/-- Covariance of Motion (impl Process for Motion):
`0.5 * (t^(2H) + s^(2H) - |t - s|^(2H))`. -/
noncomputable def Motion.cov (x : Motion) (t s : ℝ) : ℝ :=
  let power : ℝ := 2 * x.hurst
  0.5 * (t ^ power + s ^ power - |t - s| ^ power)

/-- Modelled from the spec: the circulant embedding engine (the function
`circulant_embedding` of the gaussian module, which is not among the given
sources). Per the spec it consumes a stationary covariance function, a target
size, and the source of standard-normal draws (here the stream and the current
position), and yields a complex spectral sequence together with the advanced
position. Its sizing and numeric content are left unspecified by the spec
(flagged there as an open question), so the engine is kept abstract. -/
def CirculantEngine : Type :=
  (ℕ → ℝ) → ℕ → (ℕ → ℝ) → ℕ → List ℂ × ℕ

/-- Noise::sample. `g` is the stream of standard-normal draws
(`Gaussian::new(0.0, 1.0)` sampled through the generator) and `pos` the
generator position; the returned position models generator consumption. -/
noncomputable def Noise.sample (x : Noise) (points : ℕ) (E : CirculantEngine)
    (g : ℕ → ℝ) (pos : ℕ) : List ℝ × ℕ :=
  if points = 0 then ([], pos)
  else if points = 1 then ([g pos], pos + 1)
  else
    let n : ℕ := points - 1
    let scale : ℝ := ((1 : ℝ) / (n : ℝ)) ^ x.hurst
    let data := E (fun tau => x.stationaryCov tau) n g pos
    ((data.1.take points).map fun p => scale * p.re, data.2)

/-- One pass of the body of `for i in 2..points { data[i] += data[i - 1] }`. -/
def sumStep (d : List ℝ) (i : ℕ) : List ℝ :=
  d.set i (d.getD i 0 + d.getD (i - 1) 0)

/-- The whole in-place accumulation loop of Motion::sample. -/
def runSum (d : List ℝ) (points : ℕ) : List ℝ :=
  (List.range' 2 (points - 2)).foldl sumStep d

/-- Motion::sample: a leading `0.0`, then `points - 1` noise increments,
then the in-place running sum from index 2 onward. -/
noncomputable def Motion.sample (x : Motion) (points : ℕ) (step : ℝ)
    (E : CirculantEngine) (g : ℕ → ℝ) (pos : ℕ) : List ℝ × ℕ :=
  if points = 0 then ([], pos)
  else if points = 1 then ([(0 : ℝ)], pos)
  else
    let noise := (Noise.new x.hurst step).sample (points - 1) E g pos
    (runSum ((0 : ℝ) :: noise.1) points, noise.2)

/-- Partial sums of the increment list: `psum e k` is the sum of the first
`k` entries. -/
def psum (e : List ℝ) : ℕ → ℝ
  | 0 => 0
  | k + 1 => psum e k + e.getD k 0

/-- Engine used as a concrete instance in witnesses: ignores its inputs and
returns a fixed two-entry spectral sequence without consuming draws. -/
noncomputable def engineW : CirculantEngine :=
  fun _ _ _ pos => ([⟨5, 0⟩, ⟨7, 0⟩], pos)

/-- Engine used as a concrete instance in witnesses: returns an empty
spectral sequence. -/
def engineE : CirculantEngine :=
  fun _ _ _ pos => ([], pos)

/-- Stream of draws used as a concrete instance in witnesses. -/
def streamW : ℕ → ℝ :=
  fun _ => 1

/-- C2: for every Hurst exponent in (0,1), step > 0 and lag tau, the Noise
stationary covariance returns 0.5 * step^(2H) * ((tau+1)^(2H) - 2*tau^(2H)
+ |tau-1|^(2H)), the absolute value being taken on the integer lag. -/
theorem noise_stationary_cov_formula (h d : ℝ) (hh0 : 0 < h) (hh1 : h < 1)
    (hd : 0 < d) (tau : ℕ) :
    (Noise.new h d).stationaryCov tau =
      0.5 * d ^ (2 * h) *
        (((tau : ℝ) + 1) ^ (2 * h) - 2 * (tau : ℝ) ^ (2 * h) +
          ((((tau : ℤ) - 1).natAbs : ℝ)) ^ (2 * h)) := by
  have habs : ((((tau : ℤ) - 1).natAbs : ℝ)) = |(tau : ℝ) - 1| := by
    rw [Int.cast_natAbs]
    push_cast
    ring_nf
  rw [habs]
  rfl

/-- Witness for C2 at h = 1/2, d = 1, tau = 3. -/
theorem noise_stationary_cov_formula_witness :
    (0 : ℝ) < 1 / 2 ∧ (1 / 2 : ℝ) < 1 ∧ (0 : ℝ) < 1 ∧
      (Noise.new (1 / 2) 1).stationaryCov 3 =
        0.5 * (1 : ℝ) ^ (2 * (1 / 2 : ℝ)) *
          ((((3 : ℕ) : ℝ) + 1) ^ (2 * (1 / 2 : ℝ)) -
            2 * ((3 : ℕ) : ℝ) ^ (2 * (1 / 2 : ℝ)) +
            (((((3 : ℕ) : ℤ) - 1).natAbs : ℝ)) ^ (2 * (1 / 2 : ℝ))) :=
  ⟨by norm_num, by norm_num, by norm_num,
    noise_stationary_cov_formula (1 / 2) 1 (by norm_num) (by norm_num) (by norm_num) 3⟩

/-- C4: the Motion covariance returns 0.5 * (t^(2H) + s^(2H) - |t-s|^(2H))
for all nonnegative t and s. -/
theorem motion_cov_formula (h t s : ℝ) (hh0 : 0 < h) (hh1 : h < 1)
    (ht : 0 ≤ t) (hs : 0 ≤ s) :
    (Motion.new h).cov t s = 0.5 * (t ^ (2 * h) + s ^ (2 * h) - |t - s| ^ (2 * h)) :=
  rfl

/-- Witness for C4 at h = 1/2, t = 1, s = 0. -/
theorem motion_cov_formula_witness :
    (0 : ℝ) < 1 / 2 ∧ (1 / 2 : ℝ) < 1 ∧ (0 : ℝ) ≤ 1 ∧ (0 : ℝ) ≤ 0 ∧
      (Motion.new (1 / 2)).cov 1 0 =
        0.5 * ((1 : ℝ) ^ (2 * (1 / 2 : ℝ)) + (0 : ℝ) ^ (2 * (1 / 2 : ℝ)) -
          |(1 : ℝ) - 0| ^ (2 * (1 / 2 : ℝ))) :=
  ⟨by norm_num, by norm_num, by norm_num, by norm_num,
    motion_cov_formula (1 / 2) 1 0 (by norm_num) (by norm_num) (by norm_num) (by norm_num)⟩

/-- C6: the Noise stationary covariance at lag zero equals step^(2H), with
0^(2H) = 0 because H > 0. -/
theorem noise_stationary_cov_zero (h d : ℝ) (hh0 : 0 < h) (hh1 : h < 1)
    (hd : 0 < d) :
    (Noise.new h d).stationaryCov 0 = d ^ (2 * h) := by
  have hp : (2 : ℝ) * h ≠ 0 := by positivity
  simp only [Noise.stationaryCov, Noise.new, Nat.cast_zero, zero_add, zero_sub,
    abs_neg, abs_one, Real.one_rpow, Real.zero_rpow hp]
  ring

/-- Witness for C6 at h = 1/2, d = 2. -/
theorem noise_stationary_cov_zero_witness :
    (0 : ℝ) < 1 / 2 ∧ (1 / 2 : ℝ) < 1 ∧ (0 : ℝ) < 2 ∧
      (Noise.new (1 / 2) 2).stationaryCov 0 = (2 : ℝ) ^ (2 * (1 / 2 : ℝ)) :=
  ⟨by norm_num, by norm_num, by norm_num,
    noise_stationary_cov_zero (1 / 2) 2 (by norm_num) (by norm_num) (by norm_num)⟩

/-- The pairwise Noise covariance is the stationary covariance at the
absolute difference of the indices (helper shared by several results). -/
theorem cov_lag (x : Noise) (t s : ℕ) :
    x.cov t s = some (x.stationaryCov ((t : ℤ) - (s : ℤ)).natAbs) := by
  unfold Noise.cov usizeSub
  by_cases hts : t < s
  · have h1 : t ≤ s := Nat.le_of_lt hts
    have h2 : s - t = ((t : ℤ) - (s : ℤ)).natAbs := by omega
    simp [hts, h1, h2]
  · have h1 : s ≤ t := Nat.le_of_not_lt hts
    have h2 : t - s = ((t : ℤ) - (s : ℤ)).natAbs := by omega
    simp [hts, h1, h2]

/-- C5: for every Hurst exponent in (0,1), step > 0 and indices t, s, the
pairwise Noise covariance equals the stationary covariance at |t - s|, and
is therefore symmetric in t and s. -/
theorem noise_cov_lag_symm (h d : ℝ) (hh0 : 0 < h) (hh1 : h < 1) (hd : 0 < d)
    (t s : ℕ) :
    (Noise.new h d).cov t s =
      some ((Noise.new h d).stationaryCov ((t : ℤ) - (s : ℤ)).natAbs) ∧
    (Noise.new h d).cov t s = (Noise.new h d).cov s t := by
  refine ⟨cov_lag _ t s, ?_⟩
  rw [cov_lag, cov_lag]
  have habs : ((t : ℤ) - (s : ℤ)).natAbs = ((s : ℤ) - (t : ℤ)).natAbs := by omega
  rw [habs]

/-- Witness for C5 at h = 1/2, d = 1, t = 3, s = 5. -/
theorem noise_cov_lag_symm_witness :
    (0 : ℝ) < 1 / 2 ∧ (1 / 2 : ℝ) < 1 ∧ (0 : ℝ) < 1 ∧
      ((Noise.new (1 / 2) 1).cov 3 5 =
        some ((Noise.new (1 / 2) 1).stationaryCov (((3 : ℕ) : ℤ) - ((5 : ℕ) : ℤ)).natAbs) ∧
      (Noise.new (1 / 2) 1).cov 3 5 = (Noise.new (1 / 2) 1).cov 5 3) :=
  ⟨by norm_num, by norm_num, by norm_num,
    noise_cov_lag_symm (1 / 2) 1 (by norm_num) (by norm_num) (by norm_num) 3 5⟩

/-- C10: for all indices t and s the branch picks the nonnegative difference,
so the checked usize subtraction never underflows and the pairwise Noise
covariance is total (never panics). -/
theorem noise_cov_total (x : Noise) (t s : ℕ) :
    (if t < s then usizeSub s t else usizeSub t s) =
      some (if t < s then s - t else t - s) ∧
    (x.cov t s).isSome = true := by
  constructor
  · by_cases hts : t < s
    · simp [usizeSub, hts, Nat.le_of_lt hts]
    · simp [usizeSub, hts, Nat.le_of_not_lt hts]
  · rw [cov_lag]
    rfl

/-- C9: under the parameter contract 0 < hurst < 1 and step > 0 the
debug-build assertions pass, and construction stores the given parameters
unchanged (release construction is unconditional). -/
theorem new_stores_validated (h s : ℝ) (hh0 : 0 < h) (hh1 : h < 1) (hs : 0 < s) :
    Motion.newChecked h = some (Motion.new h) ∧
    Noise.newChecked h s = some (Noise.new h s) ∧
    (Motion.new h).hurst = h ∧
    (Noise.new h s).hurst = h ∧ (Noise.new h s).step = s := by
  refine ⟨?_, ?_, rfl, rfl, rfl⟩
  · simp [Motion.newChecked, hurstCheck, hh0, hh1, Motion.new]
  · simp [Noise.newChecked, hurstCheck, stepCheck, hh0, hh1, hs, Noise.new]

/-- Witness for C9 at h = 1/2, s = 1. -/
theorem new_stores_validated_witness :
    (0 : ℝ) < 1 / 2 ∧ (1 / 2 : ℝ) < 1 ∧ (0 : ℝ) < 1 ∧
      (Motion.newChecked (1 / 2) = some (Motion.new (1 / 2)) ∧
      Noise.newChecked (1 / 2) 1 = some (Noise.new (1 / 2) 1) ∧
      (Motion.new (1 / 2)).hurst = 1 / 2 ∧
      (Noise.new (1 / 2) 1).hurst = 1 / 2 ∧ (Noise.new (1 / 2) 1).step = 1) :=
  ⟨by norm_num, by norm_num, by norm_num,
    new_stores_validated (1 / 2) 1 (by norm_num) (by norm_num) (by norm_num)⟩

/-- C7: sampling zero points from either process yields the empty sequence,
one Motion point yields exactly the path origin, and in each of these cases
the generator position is unchanged (no random draws consumed). -/
theorem sample_edge_cases (h d ms : ℝ) (hh0 : 0 < h) (hh1 : h < 1) (hd : 0 < d)
    (hms : 0 < ms) (E : CirculantEngine) (g : ℕ → ℝ) (pos : ℕ) :
    (Noise.new h d).sample 0 E g pos = ([], pos) ∧
    (Motion.new h).sample 0 ms E g pos = ([], pos) ∧
    (Motion.new h).sample 1 ms E g pos = ([0], pos) := by
  refine ⟨?_, ?_, ?_⟩ <;> simp [Noise.sample, Motion.sample]

/-- Witness for C7 at h = 1/2, d = 1, step = 1, a trivial engine and stream. -/
theorem sample_edge_cases_witness :
    (0 : ℝ) < 1 / 2 ∧ (1 / 2 : ℝ) < 1 ∧ (0 : ℝ) < 1 ∧
      ((Noise.new (1 / 2) 1).sample 0 engineE streamW 0 = ([], 0) ∧
      (Motion.new (1 / 2)).sample 0 1 engineE streamW 0 = ([], 0) ∧
      (Motion.new (1 / 2)).sample 1 1 engineE streamW 0 = ([0], 0)) :=
  ⟨by norm_num, by norm_num, by norm_num,
    sample_edge_cases (1 / 2) 1 1 (by norm_num) (by norm_num) (by norm_num)
      (by norm_num) engineE streamW 0⟩

/-- C8: sampling one Noise point returns exactly the next standard-normal
draw of the stream, advances the generator by one draw, and does not depend
on the circulant embedding engine at all. -/
theorem noise_sample_single (h d : ℝ) (hh0 : 0 < h) (hh1 : h < 1) (hd : 0 < d)
    (E E2 : CirculantEngine) (g : ℕ → ℝ) (pos : ℕ) :
    (Noise.new h d).sample 1 E g pos = ([g pos], pos + 1) ∧
    (Noise.new h d).sample 1 E g pos = (Noise.new h d).sample 1 E2 g pos := by
  constructor <;> simp [Noise.sample]

/-- Witness for C8 at h = 1/2, d = 1, with two distinct engines. -/
theorem noise_sample_single_witness :
    (0 : ℝ) < 1 / 2 ∧ (1 / 2 : ℝ) < 1 ∧ (0 : ℝ) < 1 ∧
      ((Noise.new (1 / 2) 1).sample 1 engineE streamW 0 = ([streamW 0], 0 + 1) ∧
      (Noise.new (1 / 2) 1).sample 1 engineE streamW 0 =
        (Noise.new (1 / 2) 1).sample 1 engineW streamW 0) :=
  ⟨by norm_num, by norm_num, by norm_num,
    noise_sample_single (1 / 2) 1 (by norm_num) (by norm_num) (by norm_num)
      engineE engineW streamW 0⟩

/-- Reading an index just overwritten by set yields the written value. -/
theorem getD_set_self (d : List ℝ) (i : ℕ) (hi : i < d.length) (v : ℝ) :
    (d.set i v).getD i 0 = v := by
  rw [List.getD_eq_getElem _ _ (by simpa using hi)]
  simp [List.getElem_set]

/-- Reading any other index after set is unchanged. -/
theorem getD_set_ne (d : List ℝ) (i k : ℕ) (hik : i ≠ k) (v : ℝ) :
    (d.set i v).getD k 0 = d.getD k 0 := by
  by_cases hk : k < d.length
  · rw [List.getD_eq_getElem _ _ (by simpa using hk), List.getD_eq_getElem _ _ hk]
    simp [List.getElem_set, hik]
  · rw [List.getD_eq_default _ _ (by simpa using Nat.le_of_not_lt hk),
      List.getD_eq_default _ _ (Nat.le_of_not_lt hk)]

/-- Loop invariant of the in-place accumulation: entries below the loop
counter hold partial sums, entries at or above it still hold the raw
increments shifted by the leading zero. -/
theorem runSum_loop (e : List ℝ) :
    ∀ (c j : ℕ) (d : List ℝ), 2 ≤ j → d.length = e.length + 1 →
      j + c ≤ d.length →
      (∀ k, k < j → d.getD k 0 = psum e k) →
      (∀ k, j ≤ k → k < d.length → d.getD k 0 = e.getD (k - 1) 0) →
      ((List.range' j c).foldl sumStep d).length = d.length ∧
      (∀ k, k < j + c → ((List.range' j c).foldl sumStep d).getD k 0 = psum e k) ∧
      (∀ k, j + c ≤ k → k < d.length →
        ((List.range' j c).foldl sumStep d).getD k 0 = e.getD (k - 1) 0) := by
  intro c
  induction c with
  | zero =>
    intro j d hj hlen hjc hlow hhigh
    refine ⟨by simp [List.range'], ?_, ?_⟩
    · intro k hk
      simpa [List.range'] using hlow k (by omega)
    · intro k hk1 hk2
      simpa [List.range'] using hhigh k (by omega) hk2
  | succ c ih =>
    intro j d hj hlen hjc hlow hhigh
    obtain ⟨m, rfl⟩ : ∃ m, j = m + 1 := ⟨j - 1, by omega⟩
    have hjd : m + 1 < d.length := by omega
    have hstep : sumStep d (m + 1) = d.set (m + 1) (psum e (m + 1)) := by
      unfold sumStep
      have h1 : d.getD (m + 1) 0 = e.getD m 0 := by
        simpa using hhigh (m + 1) (Nat.le_refl _) hjd
      have h2 : d.getD (m + 1 - 1) 0 = psum e m := hlow m (by omega)
      rw [h1, h2]
      congr 1
      show e.getD m 0 + psum e m = psum e m + e.getD m 0
      exact add_comm _ _
    have hrange : List.range' (m + 1) (c + 1) = (m + 1) :: List.range' (m + 2) c := rfl
    rw [hrange, List.foldl_cons, hstep]
    have hlen' : (d.set (m + 1) (psum e (m + 1))).length = e.length + 1 := by
      simp [hlen]
    have hjc' : (m + 2) + c ≤ (d.set (m + 1) (psum e (m + 1))).length := by
      simp only [List.length_set]
      omega
    have hlow' : ∀ k, k < m + 2 →
        (d.set (m + 1) (psum e (m + 1))).getD k 0 = psum e k := by
      intro k hk
      by_cases hkm : k = m + 1
      · subst hkm
        exact getD_set_self d (m + 1) hjd _
      · rw [getD_set_ne d (m + 1) k (by omega) _]
        exact hlow k (by omega)
    have hhigh' : ∀ k, m + 2 ≤ k → k < (d.set (m + 1) (psum e (m + 1))).length →
        (d.set (m + 1) (psum e (m + 1))).getD k 0 = e.getD (k - 1) 0 := by
      intro k hk1 hk2
      rw [getD_set_ne d (m + 1) k (by omega) _]
      exact hhigh k (by omega) (by simpa using hk2)
    obtain ⟨L1, L2, L3⟩ := ih (m + 2) (d.set (m + 1) (psum e (m + 1)))
      (by omega) hlen' hjc' hlow' hhigh'
    refine ⟨?_, ?_, ?_⟩
    · rw [L1]
      simp
    · intro k hk
      exact L2 k (by omega)
    · intro k hk1 hk2
      exact L3 k (by omega) (by simpa using hk2)

/-- Motion::sample on at least two points is the accumulation loop run over
the zero-led noise increments (helper). -/
theorem motion_sample_eq (x : Motion) (points : ℕ) (ms : ℝ) (E : CirculantEngine)
    (g : ℕ → ℝ) (pos : ℕ) (h0 : ¬ points = 0) (h1 : ¬ points = 1) :
    x.sample points ms E g pos =
      (runSum ((0 : ℝ) :: ((Noise.new x.hurst ms).sample (points - 1) E g pos).1) points,
        ((Noise.new x.hurst ms).sample (points - 1) E g pos).2) := by
  simp only [Motion.sample, if_neg h0, if_neg h1]

/-- C3: for at least two points, the Motion path is the prefix-sum of the
zero-led Noise increments: length is points, entry 0 is 0, and entry i is
entry i-1 plus increment i. -/
theorem motion_sample_cumsum (h ms : ℝ) (hh0 : 0 < h) (hh1 : h < 1) (hms : 0 < ms)
    (points : ℕ) (hp : 2 ≤ points) (E : CirculantEngine) (g : ℕ → ℝ) (pos : ℕ)
    (hlen : ((Noise.new h ms).sample (points - 1) E g pos).1.length = points - 1) :
    ((Motion.new h).sample points ms E g pos).1.length = points ∧
    ((Motion.new h).sample points ms E g pos).1.getD 0 0 = 0 ∧
    (∀ i, 1 ≤ i → i < points →
      ((Motion.new h).sample points ms E g pos).1.getD i 0 =
        ((Motion.new h).sample points ms E g pos).1.getD (i - 1) 0 +
        ((Noise.new h ms).sample (points - 1) E g pos).1.getD (i - 1) 0) := by
  have h0 : ¬ points = 0 := by omega
  have h1 : ¬ points = 1 := by omega
  have hhm : (Motion.new h).hurst = h := rfl
  rw [motion_sample_eq (Motion.new h) points ms E g pos h0 h1, hhm]
  have hrs : runSum ((0 : ℝ) :: ((Noise.new h ms).sample (points - 1) E g pos).1) points =
      (List.range' 2 (points - 2)).foldl sumStep
        ((0 : ℝ) :: ((Noise.new h ms).sample (points - 1) E g pos).1) := rfl
  obtain ⟨K1, K2, K3⟩ := runSum_loop ((Noise.new h ms).sample (points - 1) E g pos).1
    (points - 2) 2 ((0 : ℝ) :: ((Noise.new h ms).sample (points - 1) E g pos).1)
    (by omega) (by simp) (by simp [hlen]; omega)
    (by
      intro k hk
      interval_cases k <;> simp [psum])
    (by
      intro k hk1 hk2
      obtain ⟨k', rfl⟩ : ∃ k', k = k' + 1 := ⟨k - 1, by omega⟩
      simp)
  refine ⟨?_, ?_, ?_⟩
  · simp only [hrs, K1]
    simp [hlen]
    omega
  · have := K2 0 (by omega)
    simp only [hrs]
    simpa [psum] using this
  · intro i hi1 hi2
    obtain ⟨m, rfl⟩ : ∃ m, i = m + 1 := ⟨i - 1, by omega⟩
    have hKi := K2 (m + 1) (by omega)
    have hKm := K2 m (by omega)
    have hsub : m + 1 - 1 = m := rfl
    simp only [hrs, hsub, hKi, hKm]
    rfl

/-- Witness for C3 at h = 1/2, step 1, points = 2, a trivial engine. -/
theorem motion_sample_cumsum_witness :
    (0 : ℝ) < 1 / 2 ∧ (1 / 2 : ℝ) < 1 ∧ (0 : ℝ) < 1 ∧ 2 ≤ 2 ∧
      ((Noise.new (1 / 2) 1).sample (2 - 1) engineE streamW 0).1.length = 2 - 1 ∧
      (((Motion.new (1 / 2)).sample 2 1 engineE streamW 0).1.length = 2 ∧
      ((Motion.new (1 / 2)).sample 2 1 engineE streamW 0).1.getD 0 0 = 0 ∧
      (∀ i, 1 ≤ i → i < 2 →
        ((Motion.new (1 / 2)).sample 2 1 engineE streamW 0).1.getD i 0 =
          ((Motion.new (1 / 2)).sample 2 1 engineE streamW 0).1.getD (i - 1) 0 +
          ((Noise.new (1 / 2) 1).sample (2 - 1) engineE streamW 0).1.getD (i - 1) 0)) :=
  ⟨by norm_num, by norm_num, by norm_num, by norm_num, by simp [Noise.sample],
    motion_sample_cumsum (1 / 2) 1 (by norm_num) (by norm_num) (by norm_num) 2
      (by norm_num) engineE streamW 0 (by simp [Noise.sample])⟩

/-- C1: for at least two points, Noise::sample invokes the circulant
embedding engine with size n = points - 1 and this sampler's stationary
covariance, takes the first points entries, scales every real part
uniformly by n^(-H), and (whenever the engine supplies at least points
entries, as the spec mandates) returns exactly points values. -/
theorem noise_sample_embedding (h d : ℝ) (hh0 : 0 < h) (hh1 : h < 1) (hd : 0 < d)
    (points : ℕ) (hp : 2 ≤ points) (E : CirculantEngine) (g : ℕ → ℝ) (pos : ℕ)
    (hlen : points ≤
      (E (fun tau => (Noise.new h d).stationaryCov tau) (points - 1) g pos).1.length) :
    ((Noise.new h d).sample points E g pos).1 =
      ((E (fun tau => (Noise.new h d).stationaryCov tau) (points - 1) g pos).1.take
        points).map (fun p => ((points - 1 : ℕ) : ℝ) ^ (-h) * p.re) ∧
    ((Noise.new h d).sample points E g pos).1.length = points := by
  have h0 : ¬ points = 0 := by omega
  have h1 : ¬ points = 1 := by omega
  have hscale : ((1 : ℝ) / ((points - 1 : ℕ) : ℝ)) ^ (Noise.new h d).hurst =
      ((points - 1 : ℕ) : ℝ) ^ (-h) := by
    rw [one_div, Real.inv_rpow (Nat.cast_nonneg _), ← Real.rpow_neg (Nat.cast_nonneg _)]
    rfl
  constructor
  · simp only [Noise.sample, if_neg h0, if_neg h1, hscale]
  · simp only [Noise.sample, if_neg h0, if_neg h1, List.length_map, List.length_take]
    omega

/-- Witness for C1 at h = 1/2, d = 1, points = 2, with a two-entry engine. -/
theorem noise_sample_embedding_witness :
    (0 : ℝ) < 1 / 2 ∧ (1 / 2 : ℝ) < 1 ∧ (0 : ℝ) < 1 ∧ 2 ≤ 2 ∧
      2 ≤ (engineW (fun tau => (Noise.new (1 / 2) 1).stationaryCov tau)
        (2 - 1) streamW 0).1.length ∧
      (((Noise.new (1 / 2) 1).sample 2 engineW streamW 0).1 =
        ((engineW (fun tau => (Noise.new (1 / 2) 1).stationaryCov tau)
          (2 - 1) streamW 0).1.take 2).map
            (fun p => (((2 - 1 : ℕ) : ℝ)) ^ (-(1 / 2 : ℝ)) * p.re) ∧
      ((Noise.new (1 / 2) 1).sample 2 engineW streamW 0).1.length = 2) :=
  ⟨by norm_num, by norm_num, by norm_num, by norm_num, by simp [engineW],
    noise_sample_embedding (1 / 2) 1 (by norm_num) (by norm_num) (by norm_num) 2
      (by norm_num) engineW streamW 0 (by simp [engineW])⟩
